import Mathlib

/- Formal model of the paginated process-ancestry / children / related-events
   resolver subsystem.  The backend implementation is not part of the supplied
   sources (only its integration test suite is, in
   x-pack/test/api_integration/apis/endpoint/resolver.ts), so the definitions
   below are modelled from the specification (sections 3, 4, 6 and 7) together
   with the observable contract pinned down by that test suite. -/

namespace Resolver

/-- Modelled from the spec: unary encoding of a natural number, used by the
cursor codec.  The real codec base64-encodes a small JSON struct; the resolver
relies only on the codec being deterministic, reversible and rejecting
malformed tokens, which this simple injective encoding provides. -/
def encNat : Nat → List Char
  | 0 => ['z']
  | n + 1 => 's' :: encNat n

/-- Partial inverse of `encNat`; any character list that is not exactly an
`encNat` image decodes to `none`. -/
def decNat : List Char → Option Nat
  | [] => none
  | c :: rest =>
    if c = 'z' then (if rest.isEmpty then some 0 else none)
    else if c = 's' then (decNat rest).map (· + 1)
    else none

/-- Split a character list at the first comma, failing when no comma occurs. -/
def splitComma : List Char → Option (List Char × List Char)
  | [] => none
  | c :: rest =>
    if c = ',' then some ([], rest)
    else (splitComma rest).map (fun p => (c :: p.1, p.2))

/-- Modelled from the spec (section 4.1): `encode(timestamp, eventID)`, a
deterministic reversible opaque token. -/
def encodeCursor (t i : Nat) : String :=
  String.mk (encNat t ++ ',' :: encNat i)

/-- Modelled from the spec (section 4.1): `decode(token)`; never raises, an
unparseable token yields `none`, which callers interpret as start from the
beginning. -/
def decodeCursor (str : String) : Option (Nat × Nat) :=
  match splitComma str.data with
  | none => none
  | some (a, b) =>
    match decNat a, decNat b with
    | some t, some i => some (t, i)
    | _, _ => none

/-- Kind of an endpoint document: a process-start lifecycle event, a
process-end lifecycle event, or a non-lifecycle related event. -/
inductive EventKind
  | start
  | stop
  | related
deriving DecidableEq, Repr

/-- True for the two lifecycle kinds. -/
def EventKind.isLifecycle : EventKind → Bool
  | .related => false
  | _ => true

/-- True for process-start events, the documents the children scan runs over. -/
def EventKind.isStart : EventKind → Bool
  | .start => true
  | _ => false

/-- True for related (non-lifecycle) events. -/
def EventKind.isRelated : EventKind → Bool
  | .related => true
  | _ => false

/-- Modelled from the spec (section 3): one stored endpoint document.  The
`parent` field is the derived parent entity id of the event (absent at the
root of the known ancestry); `categories` are the ECS category codes attached
to a related event. -/
structure Event where
  timestamp : Nat
  eventID : Nat
  entity : String
  parent : Option String
  kind : EventKind
  categories : List String
deriving DecidableEq, Repr

/-- Sort key of a document, the pair carried by pagination cursors. -/
def Event.key (e : Event) : Nat × Nat := (e.timestamp, e.eventID)

/-- Strict ordering on cursor keys: timestamp ascending, event id as the
tie-break. -/
def keyLtb (a b : Nat × Nat) : Bool :=
  a.1 < b.1 || (a.1 == b.1 && a.2 < b.2)

/-- Does a document come strictly after the cursor position (an absent cursor
lets everything through)? -/
def afterKey (cur : Option (Nat × Nat)) (e : Event) : Bool :=
  match cur with
  | none => true
  | some k => keyLtb k e.key

/-- The parent entity id carried by a single event (the `parentEntityId`
helper of the source tree). -/
def parentEntityId (e : Event) : Option String := e.parent

/-- Parent link of a lifecycle node, read off the first lifecycle event, as
the tests do with `parentEntityId(node.lifecycle[0])`. -/
def lifecycleParent (evs : List Event) : Option String :=
  evs.head?.bind parentEntityId

/-- Modelled from the spec (section 2): the event store adapter, a read-only
collection of documents assumed to be returned in time order. -/
structure Store where
  docs : List Event

/-- All lifecycle events of an entity, in store order. -/
def Store.lifecycleOf (s : Store) (id : String) : List Event :=
  s.docs.filter (fun e => e.entity == id && e.kind.isLifecycle)

/-- All related (non-lifecycle) events of an entity, in store order. -/
def Store.relatedOf (s : Store) (id : String) : List Event :=
  s.docs.filter (fun e => e.entity == id && e.kind.isRelated)

/-- Parent link of an entity: the parent entity id of its first lifecycle
event. -/
def Store.parentLinkOf (s : Store) (id : String) : Option String :=
  lifecycleParent (s.lifecycleOf id)

/-- A lifecycle node of the response: an entity id together with its ordered
lifecycle events. -/
structure LifecycleNode where
  entityID : String
  lifecycle : List Event
deriving DecidableEq, Repr

/-- Response shape of the ancestry endpoint. -/
structure ResolverAncestry where
  ancestors : List LifecycleNode
  nextAncestor : Option String
deriving DecidableEq, Repr

/-- Response shape of the related-events endpoint. -/
structure ResolverRelatedEvents where
  entityID : String
  events : List Event
  nextEvent : Option String
deriving DecidableEq, Repr

/-- A child node of the response: it additionally carries its own `nextChild`
cursor describing further children of that node. -/
structure ChildNode where
  entityID : String
  lifecycle : List Event
  nextChild : Option String
deriving DecidableEq, Repr

/-- Response shape of the children endpoint. -/
structure ResolverChildren where
  childNodes : List ChildNode
  nextChild : Option String
deriving DecidableEq, Repr

/-- Modelled from the spec (section 4.2): walk parent links upward one hop at
a time starting from the given parent link, collecting up to `fuel` ancestor
nodes.  Stops with a `none` continuation when a node has no parent link or the
link does not resolve; stops with the pending parent id as the continuation
when the requested count is exhausted. -/
def Store.ancestorsAfter (s : Store) : Nat → Option String → List LifecycleNode × Option String
  | _, none => ([], none)
  | 0, some pid => ([], some pid)
  | fuel + 1, some pid =>
    let evs := s.lifecycleOf pid
    if evs.isEmpty then ([], none)
    else
      let r := s.ancestorsAfter fuel (lifecycleParent evs)
      (⟨pid, evs⟩ :: r.1, r.2)

/-- Modelled from the spec (section 4.2): the ancestry endpoint body.  The
origin node comes first in the returned array (the tests read the origin from
`ancestors[0]`); an unknown entity id yields an empty array and a null
continuation. -/
def getAncestry (s : Store) (id : String) (maxAncestors : Nat) : ResolverAncestry :=
  let evs := s.lifecycleOf id
  if evs.isEmpty then ⟨[], none⟩
  else
    let r := s.ancestorsAfter maxAncestors (lifecycleParent evs)
    ⟨⟨id, evs⟩ :: r.1, r.2⟩

/-- Ids of the resolvable ancestor chain hanging off a parent link, bounded by
the fuel; mirrors the node walk of `Store.ancestorsAfter`. -/
def Store.chainFrom (s : Store) : Nat → Option String → List String
  | _, none => []
  | 0, some _ => []
  | fuel + 1, some pid =>
    if (s.lifecycleOf pid).isEmpty then []
    else pid :: s.chainFrom fuel (s.parentLinkOf pid)

/-- Continuation cursor of a related-events page: the encoded key of the last
returned event when the page is full, null otherwise. -/
def nextEventCursor (page : List Event) (pageSize : Nat) : Option String :=
  match page.getLast? with
  | some e =>
    if page.length == pageSize then some (encodeCursor e.timestamp e.eventID) else none
  | none => none

/-- Modelled from the spec (section 4.4): the related-events endpoint body.
The stored related events are filtered to those strictly after the decoded
cursor, a page is taken, and `nextEvent` is set exactly when the page is
full. -/
def getRelatedEvents (s : Store) (id : String) (pageSize : Nat)
    (afterEvent : Option String) : ResolverRelatedEvents :=
  let rem := (s.relatedOf id).filter (afterKey (afterEvent.bind decodeCursor))
  let page := rem.take pageSize
  ⟨id, page, nextEventCursor page pageSize⟩

/-- Is the parent link of a document one of the frontier entities? -/
def parentIn (frontier : List String) (e : Event) : Bool :=
  match e.parent with
  | some p => frontier.any (fun q => p == q)
  | none => false

/-- The candidate documents of one children generation: process-start events
whose parent lies in the current frontier, in store (time) order. -/
def Store.childDocs (s : Store) (frontier : List String) : List Event :=
  s.docs.filter (fun e => e.kind.isStart && parentIn frontier e)

/-- Per-parent continuation cursor of one generation scan: when the page was
full, the cursor after the last returned child of that parent (none when the
parent had no returned children); when the page was not full, none. -/
def nextChildFor (p : String) (page : List Event) (full : Bool) : Option String :=
  if full then
    match (page.filter (fun e => e.parent == some p)).getLast? with
    | some e => some (encodeCursor e.timestamp e.eventID)
    | none => none
  else none

/-- Look up the continuation assigned to a frontier entity. -/
def lookupAssign (l : List (String × Option String)) (p : String) : Option String :=
  match l.find? (fun q => q.1 == p) with
  | some q => q.2
  | none => none

/-- Modelled from the spec (section 4.3): the breadth-first generation walk.
Each generation issues one scan over the start events of the whole frontier,
takes one page, recurses on the found children, and reports for every frontier
entity its own continuation cursor.  The cursor argument applies only to the
first scanned generation; deeper generations start from the beginning. -/
def Store.childWalk (s : Store) (size : Nat) :
    Nat → List String → Option (Nat × Nat) → List ChildNode × List (String × Option String)
  | 0, frontier, _ => ([], frontier.map (fun p => (p, none)))
  | gens + 1, frontier, cur =>
    let page := ((s.childDocs frontier).filter (afterKey cur)).take size
    let full := page.length == size
    let deeper := s.childWalk size gens (page.map (fun e => e.entity)) none
    let nodes := page.map (fun e =>
      { entityID := e.entity
        lifecycle := s.lifecycleOf e.entity
        nextChild := lookupAssign deeper.2 e.entity : ChildNode })
    (nodes ++ deeper.1, frontier.map (fun p => (p, nextChildFor p page full)))

/-- Modelled from the spec (section 4.3): the children endpoint body.  The
top-level `nextChild` is the continuation of the request root itself. -/
def getChildren (s : Store) (id : String) (size gens : Nat)
    (afterChild : Option String) : ResolverChildren :=
  let w := s.childWalk size gens [id] (afterChild.bind decodeCursor)
  ⟨w.1, lookupAssign w.2 id⟩

/-- HTTP-level outcome of a request: a 200 body or a 400 rejection. -/
inductive RouteResult (α : Type) where
  | ok (body : α)
  | badRequest
deriving DecidableEq

/-- Modelled from the spec (sections 4.4 and 6): a pagination size parameter
is valid exactly on the interval [1, 2000). -/
def validSize (n : Int) : Bool :=
  1 ≤ n && n < 2000

/-- Modelled from the spec (section 6): the related-events route; rejects an
out-of-range `events` parameter before consulting the store. -/
def eventsRoute (s : Store) (id : String) (events : Int)
    (afterEvent : Option String) : RouteResult ResolverRelatedEvents :=
  if validSize events then .ok (getRelatedEvents s id events.toNat afterEvent)
  else .badRequest

/-- Modelled from the spec (section 6): the ancestry route; rejects an
out-of-range `ancestors` parameter before consulting the store. -/
def ancestryRoute (s : Store) (id : String) (ancestors : Int) :
    RouteResult ResolverAncestry :=
  if validSize ancestors then .ok (getAncestry s id ancestors.toNat)
  else .badRequest

/-- Modelled from the spec (section 6): the children route; rejects an
out-of-range `children` parameter before consulting the store. -/
def childrenRoute (s : Store) (id : String) (children : Int) (gens : Nat)
    (afterChild : Option String) : RouteResult ResolverChildren :=
  if validSize children then .ok (getChildren s id children.toNat gens afterChild)
  else .badRequest

/-- Aggregate stats of one node: a per-category count and the total number of
related events. -/
structure ResolverNodeStats where
  byCategory : String → Nat
  total : Nat

/-- Modelled from the spec (section 4.6): per-category counts over the related
events of an entity; `total` counts every related event exactly once, even
when an event satisfies several category codes. -/
def computeStats (s : Store) (id : String) : ResolverNodeStats :=
  { byCategory := fun code =>
      ((s.relatedOf id).filter (fun e => e.categories.contains code)).length
    total := (s.relatedOf id).length }

/-- The related-event categories of the data generator driving the tests. -/
inductive RelatedEventCategory
  | driver
  | file
  | registry
  | network
  | security
deriving DecidableEq, Repr, Fintype

/-- Modelled from the spec (section 4.6): the fixed category-mapping table; a
related-event category maps to one or several underlying ECS category
codes. -/
def categoryMapping : RelatedEventCategory → List String
  | .driver => ["driver"]
  | .file => ["file"]
  | .registry => ["registry"]
  | .network => ["network"]
  | .security => ["authentication", "session"]

/-- Modelled from the spec: the related events produced by the data generator
for an entity, given per-category counts; every event of a category carries
all the ECS codes that category maps to. -/
def genRelated (id : String) : List (RelatedEventCategory × Nat) → List Event
  | [] => []
  | (cat, n) :: rest =>
    (List.range n).map (fun i =>
      { timestamp := 0, eventID := i, entity := id, parent := none
        kind := .related, categories := categoryMapping cat }) ++ genRelated id rest

/-- Client-side accumulation of successive related-event pages: each response
feeds its `nextEvent` back verbatim as the next `afterEvent`, stopping on a
null continuation (or when the fuel runs out). -/
def collectPages (s : Store) (id : String) (ps : Nat) :
    Nat → Option String → List Event
  | 0, _ => []
  | fuel + 1, cur =>
    let r := getRelatedEvents s id ps cur
    match r.nextEvent with
    | none => r.events
    | some tok => r.events ++ collectPages s id ps fuel (some tok)

/-- Well-formedness of the store used by the spec (section 4.2): every parent
link carried by a lifecycle event resolves to an entity that has lifecycle
events of its own. -/
@[reducible] def Store.ResolvesWF (s : Store) : Prop :=
  ∀ e ∈ s.docs, e.kind.isLifecycle = true →
    e.parent.all (fun p => !(s.lifecycleOf p).isEmpty) = true

/-- Acyclicity of parent links, witnessed by a depth measure that strictly
decreases along every parent link of a lifecycle event. -/
@[reducible] def Store.AncDepthWF (s : Store) (depth : String → Nat) : Prop :=
  ∀ e ∈ s.docs, e.kind.isLifecycle = true →
    e.parent.all (fun p => decide (depth p < depth e.entity)) = true

/-- Shape of the process tree, witnessed by a depth measure: the entity of a
start event sits exactly one generation below its parent. -/
@[reducible] def Store.ChildDepthWF (s : Store) (depth : String → Nat) : Prop :=
  ∀ e ∈ s.docs, e.kind.isStart = true →
    e.parent.all (fun p => decide (depth e.entity = depth p + 1)) = true

/-- Data-model invariant from the spec (section 3): at most one start event
per entity. -/
@[reducible] def Store.StartNodup (s : Store) : Prop :=
  ((s.docs.filter (fun e => e.kind.isStart)).map (fun e => e.entity)).Nodup

/-- A parent link that is either absent or resolves in the store. -/
@[reducible] def Store.OkLink (s : Store) (p : Option String) : Prop :=
  ∀ q, p = some q → (s.lifecycleOf q).isEmpty = false

/-- Related events of an entity come back from the store adapter in strictly
increasing cursor-key order. -/
@[reducible] def SortedByKey (l : List Event) : Prop :=
  l.Pairwise (fun a b => keyLtb a.key b.key = true)

/-- Shorthand for building a concrete document with no categories. -/
def mkE (t i : Nat) (ent : String) (par : Option String) (k : EventKind) : Event :=
  { timestamp := t, eventID := i, entity := ent, parent := par, kind := k, categories := [] }

/-- Concrete store with an origin `p0` and five ancestors `p1` … `p5`,
mirroring the generated tree of the integration tests. -/
def ancStore : Store :=
  ⟨[ mkE 1 1 "p5" none .start
   , mkE 2 2 "p4" (some "p5") .start
   , mkE 3 3 "p3" (some "p4") .start
   , mkE 4 4 "p2" (some "p3") .start
   , mkE 5 5 "p1" (some "p2") .start
   , mkE 6 6 "p0" (some "p1") .start ]⟩

/-- Concrete store with an origin `O`, three children and three grandchildren
per child, mirroring the generated tree of the integration tests (two
generations of three children each). -/
def childStore : Store :=
  ⟨[ mkE 1 1 "O" none .start
   , mkE 2 2 "c1" (some "O") .start
   , mkE 3 3 "c2" (some "O") .start
   , mkE 4 4 "c3" (some "O") .start
   , mkE 5 5 "d1" (some "c1") .start
   , mkE 6 6 "d2" (some "c1") .start
   , mkE 7 7 "d3" (some "c1") .start
   , mkE 8 8 "e1" (some "c2") .start
   , mkE 9 9 "e2" (some "c2") .start
   , mkE 10 10 "e3" (some "c2") .start
   , mkE 11 11 "f1" (some "c3") .start
   , mkE 12 12 "f2" (some "c3") .start
   , mkE 13 13 "f3" (some "c3") .start ]⟩

/-- Generation depth of the entities of `childStore`. -/
def childDepth : String → Nat :=
  fun id => if id == "O" then 0 else if ["c1", "c2", "c3"].contains id then 1 else 2

/-- Concrete store with an entity `a` owning four related events, mirroring
the four related events the tests generate for the origin. -/
def relStore : Store :=
  ⟨[ mkE 1 1 "a" none .start
   , { timestamp := 2, eventID := 2, entity := "a", parent := none
       kind := .related, categories := ["driver"] }
   , { timestamp := 3, eventID := 3, entity := "a", parent := none
       kind := .related, categories := ["driver"] }
   , { timestamp := 4, eventID := 4, entity := "a", parent := none
       kind := .related, categories := ["file"] }
   , { timestamp := 5, eventID := 5, entity := "a", parent := none
       kind := .related, categories := ["registry"] } ]⟩

/-- The unary digits of `encNat` never contain the separator. -/
theorem comma_notMem_encNat (n : Nat) : ',' ∉ encNat n := by
  induction n with
  | zero => decide
  | succ k ih =>
    simp only [encNat, List.mem_cons]
    rintro (h | h)
    · exact absurd h (by decide)
    · exact ih h

/-- Splitting at the comma recovers both halves when the first half is
comma-free. -/
theorem splitComma_append (l r : List Char) (h : ',' ∉ l) :
    splitComma (l ++ ',' :: r) = some (l, r) := by
  induction l with
  | nil => simp [splitComma]
  | cons c t ih =>
    have hc : ¬ c = ',' := by
      rintro rfl
      exact h (List.mem_cons_self _ _)
    simp [splitComma, hc, ih (fun hm => h (List.mem_cons_of_mem c hm))]

/-- Decoding a unary digit string recovers the encoded number. -/
theorem decNat_encNat (n : Nat) : decNat (encNat n) = some n := by
  induction n with
  | zero => decide
  | succ k ih => simp [encNat, decNat, ih]

/-- The cursor codec is reversible: decoding an encoded token yields the
original key pair. -/
theorem decodeCursor_encodeCursor (t i : Nat) :
    decodeCursor (encodeCursor t i) = some (t, i) := by
  unfold decodeCursor encodeCursor
  rw [show (String.mk (encNat t ++ ',' :: encNat i)).data
        = encNat t ++ ',' :: encNat i from rfl]
  rw [splitComma_append _ _ (comma_notMem_encNat t)]
  simp [decNat_encNat]

/-- Mapping a key through the codec and back is the identity. -/
theorem bind_decode_map_encode (cur : Option (Nat × Nat)) :
    (cur.map (fun k => encodeCursor k.1 k.2)).bind decodeCursor = cur := by
  cases cur with
  | none => rfl
  | some k => simp [decodeCursor_encodeCursor]

/-- Cursor-key order is transitive. -/
theorem keyLtb_trans {a b c : Nat × Nat} (h1 : keyLtb a b = true)
    (h2 : keyLtb b c = true) : keyLtb a c = true := by
  simp only [keyLtb, Bool.or_eq_true, Bool.and_eq_true, decide_eq_true_eq,
    beq_iff_eq] at h1 h2 ⊢
  omega

/-- Cursor-key order is irreflexive. -/
theorem keyLtb_irrefl (a : Nat × Nat) : keyLtb a a = false := by
  rw [Bool.eq_false_iff]
  intro h
  simp only [keyLtb, Bool.or_eq_true, Bool.and_eq_true, decide_eq_true_eq,
    beq_iff_eq] at h
  omega

/-- Cursor-key order is asymmetric. -/
theorem keyLtb_asymm {a b : Nat × Nat} (h : keyLtb a b = true) :
    keyLtb b a = false := by
  rw [Bool.eq_false_iff]
  intro h2
  simp only [keyLtb, Bool.or_eq_true, Bool.and_eq_true, decide_eq_true_eq,
    beq_iff_eq] at h h2
  omega

/-- A list has no last element exactly when it is empty. -/
theorem getLast?_none_iff {α : Type _} {l : List α} : l.getLast? = none ↔ l = [] := by
  rw [← Option.not_isSome_iff_eq_none, List.getLast?_isSome]
  simp

/-- The entity ids of the collected ancestor nodes are exactly the bounded
parent chain. -/
theorem ancestorsAfter_ids (s : Store) :
    ∀ fuel p, ((s.ancestorsAfter fuel p).1).map (fun nd => nd.entityID)
      = s.chainFrom fuel p := by
  intro fuel
  induction fuel with
  | zero => intro p; cases p <;> rfl
  | succ k ih =>
    intro p
    cases p with
    | none => rfl
    | some pid =>
      simp only [Store.ancestorsAfter, Store.chainFrom, Store.parentLinkOf]
      by_cases h : (s.lifecycleOf pid).isEmpty
      · simp [h]
      · simp [h, ih]

/-- Once the fuel is generous enough to exhaust the parent chain, the chain
walked with any other fuel has length `min (full length) fuel`. -/
theorem chainFrom_stable (s : Store) :
    ∀ n K p, (s.chainFrom K p).length < K →
      (s.chainFrom n p).length = min (s.chainFrom K p).length n := by
  intro n
  induction n with
  | zero =>
    intro K p hK
    cases p <;> simp [Store.chainFrom]
  | succ m ih =>
    intro K p hK
    cases p with
    | none => simp [Store.chainFrom]
    | some pid =>
      by_cases h : (s.lifecycleOf pid).isEmpty
      · cases K <;> simp [Store.chainFrom, h]
      · cases K with
        | zero => simp [Store.chainFrom] at hK
        | succ k =>
          simp only [Store.chainFrom, h, if_false, Bool.false_eq_true,
            List.length_cons] at hK ⊢
          have hk : (s.chainFrom k (s.parentLinkOf pid)).length < k := by omega
          rw [ih k (s.parentLinkOf pid) hk]
          omega

/-- The number of returned ancestry nodes equals the length of the parent
chain rooted at the requested entity, walked with fuel `maxAncestors + 1`. -/
theorem getAncestry_length (s : Store) (id : String) (n : Nat) :
    (getAncestry s id n).ancestors.length
      = (s.chainFrom (n + 1) (some id)).length := by
  by_cases h : (s.lifecycleOf id).isEmpty
  · simp [getAncestry, Store.chainFrom, h]
  · simp only [getAncestry, Store.chainFrom, Store.parentLinkOf, h,
      if_false, Bool.false_eq_true, List.length_cons]
    rw [← ancestorsAfter_ids s n (lifecycleParent (s.lifecycleOf id)),
      List.length_map]

/-- C1 (amended): for every `maxAncestors`, the ancestors array of the
ancestry endpoint has length `min (actual chain length, maxAncestors + 1)`,
where the actual chain length counts the origin together with all resolvable
ancestors (the origin is always included and does not count against
`maxAncestors`).  The chain length is expressed as the chain walked with any
fuel `K` large enough that the walk terminates before exhausting it. -/
theorem ancestry_length_formula (s : Store) (id : String) (n K : Nat)
    (hK : (s.chainFrom K (some id)).length < K) :
    (getAncestry s id n).ancestors.length
      = min (s.chainFrom K (some id)).length (n + 1) := by
  rw [getAncestry_length, chainFrom_stable s (n + 1) K (some id) hK]

/-- C1 counterexample: on the five-ancestor store, requesting `ancestors = 2`
returns three nodes (two ancestors plus the origin), which differs from
`min (actual chain length, maxAncestors)` under either reading of the chain
length (6 nodes counting the origin, 5 without it). -/
theorem ancestry_length_claim_counterexample :
    (getAncestry ancStore "p0" 2).ancestors.length = 3
      ∧ (getAncestry ancStore "p0" 2).ancestors.length ≠ min 6 2
      ∧ (getAncestry ancStore "p0" 2).ancestors.length ≠ min 5 2 := by
  decide

/-- C1 witness: the five-ancestor scenario of the tests.  The chain of `p0`
has 6 entries (origin plus five ancestors), requesting `ancestors = 9`
returns `min 6 10 = 6` nodes, and the continuation is null. -/
theorem ancestry_length_formula_witness :
    ((ancStore.chainFrom 7 (some "p0")).length < 7
        ∧ (getAncestry ancStore "p0" 9).ancestors.length
            = min (ancStore.chainFrom 7 (some "p0")).length (9 + 1))
      ∧ (getAncestry ancStore "p0" 9).ancestors.length = 6
      ∧ (getAncestry ancStore "p0" 9).nextAncestor = none := by
  refine ⟨⟨by decide, ancestry_length_formula ancStore "p0" 9 7 (by decide)⟩,
    by decide, by decide⟩

/-- In a store whose parent links resolve, the parent link of any entity is
an acceptable link to continue the walk from. -/
theorem parentLink_resolves (s : Store) (hwf : s.ResolvesWF) (lid : String) :
    s.OkLink (s.parentLinkOf lid) := by
  intro q hq
  unfold Store.parentLinkOf lifecycleParent at hq
  cases hh : (s.lifecycleOf lid).head? with
  | none => rw [hh] at hq; simp at hq
  | some e =>
    rw [hh] at hq
    simp only [Option.some_bind] at hq
    have he : e ∈ s.lifecycleOf lid :=
      List.mem_of_mem_head? (Option.mem_def.mpr hh)
    have hm := List.mem_filter.mp he
    have hm2 := hm.2
    simp only [Bool.and_eq_true] at hm2
    have hall := hwf e hm.1 hm2.2
    rw [show e.parent = some q from hq] at hall
    simp only [Option.all_some, Bool.not_eq_true'] at hall
    exact hall

/-- In a store with a strictly decreasing depth measure along parent links,
every resolved parent link decreases the depth. -/
theorem parentLink_depth (s : Store) (depth : String → Nat)
    (hd : s.AncDepthWF depth) {lid q : String}
    (hq : s.parentLinkOf lid = some q) : depth q < depth lid := by
  unfold Store.parentLinkOf lifecycleParent at hq
  cases hh : (s.lifecycleOf lid).head? with
  | none => rw [hh] at hq; simp at hq
  | some e =>
    rw [hh] at hq
    simp only [Option.some_bind] at hq
    have he : e ∈ s.lifecycleOf lid :=
      List.mem_of_mem_head? (Option.mem_def.mpr hh)
    have hm := List.mem_filter.mp he
    have hm2 := hm.2
    simp only [Bool.and_eq_true] at hm2
    have hent : e.entity = lid := beq_iff_eq.mp hm2.1
    have hall := hd e hm.1 hm2.2
    rw [show e.parent = some q from hq] at hall
    simp only [Option.all_some, decide_eq_true_eq] at hall
    rw [hent] at hall
    exact hall

/-- The continuation of the ancestor walk is exactly the parent link of the
last collected node, and the pending parent id when nothing was collected. -/
theorem ancestorsAfter_next (s : Store) (hwf : s.ResolvesWF) :
    ∀ fuel p, s.OkLink p →
      (s.ancestorsAfter fuel p).2
        = ((s.ancestorsAfter fuel p).1.getLast?).elim p
            (fun nd => lifecycleParent nd.lifecycle) := by
  intro fuel
  induction fuel with
  | zero => intro p _; cases p <;> rfl
  | succ k ih =>
    intro p hp
    cases p with
    | none => rfl
    | some pid =>
      have hne : (s.lifecycleOf pid).isEmpty = false := hp pid rfl
      have hok : s.OkLink (lifecycleParent (s.lifecycleOf pid)) := by
        have := parentLink_resolves s hwf pid
        rwa [Store.parentLinkOf] at this
      have ihh := ih (lifecycleParent (s.lifecycleOf pid)) hok
      simp only [Store.ancestorsAfter, hne, Bool.false_eq_true, if_false]
      cases hrest : (s.ancestorsAfter k (lifecycleParent (s.lifecycleOf pid))).1 with
      | nil =>
        rw [hrest] at ihh
        simp only [List.getLast?_nil, Option.elim_none] at ihh
        simp [ihh]
      | cons nd2 rest2 =>
        rw [hrest] at ihh
        cases hg : (nd2 :: rest2).getLast? with
        | none => exact absurd (getLast?_none_iff.mp hg) (by simp)
        | some nd =>
          rw [hg] at ihh
          simp only [Option.elim_some] at ihh
          rw [List.getLast?_cons_cons, hg]
          exact ihh

/-- C2: the continuation of the ancestry endpoint is precisely the parent
entity id carried by the first lifecycle event of the last returned node,
none when nothing was returned; hence `nextAncestor` is null exactly when the
walk reached a node with no parent link (or the entity was unknown),
regardless of whether the requested count was exhausted, and when exactly
`maxAncestors` ancestors were collected with a further parent pending,
`nextAncestor` is that parent entity id. -/
theorem ancestry_next_theorem (s : Store) (hwf : s.ResolvesWF)
    (id : String) (n : Nat) :
    ((getAncestry s id n).nextAncestor
        = ((getAncestry s id n).ancestors.getLast?).elim none
            (fun nd => lifecycleParent nd.lifecycle))
      ∧ ((getAncestry s id n).nextAncestor = none ↔
          (getAncestry s id n).ancestors = []
            ∨ ∃ nd, (getAncestry s id n).ancestors.getLast? = some nd
                ∧ lifecycleParent nd.lifecycle = none) := by
  by_cases h : (s.lifecycleOf id).isEmpty
  · constructor
    · simp [getAncestry, h]
    · simp [getAncestry, h]
  · have hok : s.OkLink (some id) := by
      intro q hq
      cases hq
      exact Bool.eq_false_iff.mpr h
    have hnext := ancestorsAfter_next s hwf (n + 1) (some id) hok
    have hstep : s.ancestorsAfter (n + 1) (some id)
        = (⟨id, s.lifecycleOf id⟩ :: (s.ancestorsAfter n (lifecycleParent (s.lifecycleOf id))).1,
           (s.ancestorsAfter n (lifecycleParent (s.lifecycleOf id))).2) := by
      simp [Store.ancestorsAfter, h]
    rw [hstep] at hnext
    dsimp only at hnext
    have hAnc : (getAncestry s id n).ancestors
        = ⟨id, s.lifecycleOf id⟩
            :: (s.ancestorsAfter n (lifecycleParent (s.lifecycleOf id))).1 := by
      simp [getAncestry, h]
    have hNext : (getAncestry s id n).nextAncestor
        = (s.ancestorsAfter n (lifecycleParent (s.lifecycleOf id))).2 := by
      simp [getAncestry, h]
    rw [hAnc, hNext]
    cases hg : (⟨id, s.lifecycleOf id⟩
        :: (s.ancestorsAfter n (lifecycleParent (s.lifecycleOf id))).1 :
          List LifecycleNode).getLast? with
    | none => exact absurd (getLast?_none_iff.mp hg) (by simp)
    | some nd =>
      rw [hg] at hnext
      simp only [Option.elim_some] at hnext
      refine ⟨by simp [hnext], ?_⟩
      rw [hnext]
      constructor
      · intro hpar
        exact Or.inr ⟨nd, rfl, hpar⟩
      · rintro (hnil | ⟨nd2, hnd2, hpar⟩)
        · exact absurd hnil (by simp)
        · cases hnd2
          exact hpar

/-- C2 witness: on the five-ancestor store, requesting `ancestors = 2` for
the origin exhausts the budget with the parent `p3` pending, and the
continuation equals the parent link of the last returned node. -/
theorem ancestry_next_witness :
    ancStore.ResolvesWF
      ∧ ((getAncestry ancStore "p0" 2).nextAncestor
          = ((getAncestry ancStore "p0" 2).ancestors.getLast?).elim none
              (fun nd => lifecycleParent nd.lifecycle))
      ∧ (getAncestry ancStore "p0" 2).nextAncestor = some "p3" := by
  refine ⟨by decide, (ancestry_next_theorem ancStore (by decide) "p0" 2).1, by decide⟩

/-- With an empty frontier there are no candidate start documents. -/
theorem childDocs_nilFrontier (s : Store) : s.childDocs [] = [] := by
  unfold Store.childDocs
  rw [List.filter_eq_nil_iff]
  intro e _
  cases hp : e.parent <;> simp [parentIn, hp]

/-- With an empty page the per-parent continuation is always null. -/
theorem nextChildFor_nil (p : String) (b : Bool) : nextChildFor p [] b = none := by
  cases b <;> simp [nextChildFor]

/-- When the first generation scan has no candidates, the whole walk returns
nothing and assigns a null continuation to every frontier entity. -/
theorem childWalk_noCandidates (s : Store) (size : Nat) :
    ∀ gens frontier cur, (s.childDocs frontier).filter (afterKey cur) = [] →
      s.childWalk size gens frontier cur = ([], frontier.map (fun p => (p, none))) := by
  intro gens
  induction gens with
  | zero => intro frontier cur _; rfl
  | succ g ih =>
    intro frontier cur h
    have hdeep := ih [] none (by rw [childDocs_nilFrontier]; rfl)
    simp only [Store.childWalk, h]
    simp [hdeep, nextChildFor_nil]

/-- Looking anything up in an all-null assignment yields null. -/
theorem lookupAssign_map_none (l : List String) (id : String) :
    lookupAssign (l.map (fun p => (p, none))) id = none := by
  unfold lookupAssign
  cases hf : (l.map (fun p => (p, (none : Option String)))).find? (fun q => q.1 == id) with
  | none => rfl
  | some q =>
    have hq := List.mem_of_find?_eq_some hf
    rcases List.mem_map.mp hq with ⟨p, _, rfl⟩
    rfl

/-- Looking up an entity at the head of an assignment returns its value. -/
theorem lookupAssign_cons_self (id : String) (x : Option String)
    (t : List (String × Option String)) :
    lookupAssign ((id, x) :: t) id = x := by
  unfold lookupAssign
  rw [List.find?_cons_of_pos _ (by simp)]

/-- C3: cursor handling is asymmetric.  A well-formed cursor pointing beyond
the data yields an empty result with a null continuation on both paginated
endpoints; a malformed cursor is silently treated as absent, so the request
returns the first page; and a cursor never causes a 400, which depends only
on the size parameter. -/
theorem cursor_asymmetry_theorem (s : Store) (id : String)
    (ps size gens : Nat) (tok : String) :
    (∀ k, decodeCursor tok = some k →
        (∀ e ∈ s.relatedOf id, keyLtb k e.key = false) →
        getRelatedEvents s id ps (some tok) = ⟨id, [], none⟩)
      ∧ (∀ k, decodeCursor tok = some k →
          (∀ e ∈ s.childDocs [id], keyLtb k e.key = false) →
          getChildren s id size gens (some tok) = ⟨[], none⟩)
      ∧ (decodeCursor tok = none →
          getRelatedEvents s id ps (some tok) = getRelatedEvents s id ps none
            ∧ getChildren s id size gens (some tok) = getChildren s id size gens none)
      ∧ ∀ n : Int, validSize n = true →
          eventsRoute s id n (some tok)
              = RouteResult.ok (getRelatedEvents s id n.toNat (some tok))
            ∧ childrenRoute s id n gens (some tok)
                = RouteResult.ok (getChildren s id n.toNat gens (some tok)) := by
  refine ⟨?_, ?_, ?_, ?_⟩
  · intro k hk hbeyond
    have hfil : (s.relatedOf id).filter (afterKey (some k)) = [] := by
      rw [List.filter_eq_nil_iff]
      intro e he
      simp [afterKey, hbeyond e he]
    simp [getRelatedEvents, nextEventCursor, hk, hfil]
  · intro k hk hbeyond
    have hfil : (s.childDocs [id]).filter (afterKey (some k)) = [] := by
      rw [List.filter_eq_nil_iff]
      intro e he
      simp [afterKey, hbeyond e he]
    have hwalk := childWalk_noCandidates s size gens [id] (some k) hfil
    simp [getChildren, hk, hwalk, lookupAssign_cons_self]
  · intro hk
    constructor
    · simp [getRelatedEvents, hk]
    · simp [getChildren, hk]
  · intro n hv
    exact ⟨by simp [eventsRoute, hv], by simp [childrenRoute, hv]⟩

/-- C3 witness: on the related-events store, the well-formed cursor for key
(5, 5) lies beyond all four related events and returns an empty page with a
null continuation on both endpoints, while the malformed token `blah` is
treated as an absent cursor, and neither token causes a rejection. -/
theorem cursor_asymmetry_witness :
    (getRelatedEvents relStore "a" 2 (some (encodeCursor 5 5)) = ⟨"a", [], none⟩)
      ∧ (getChildren relStore "a" 2 1 (some (encodeCursor 5 5)) = ⟨[], none⟩)
      ∧ (getRelatedEvents relStore "a" 2 (some "blah")
          = getRelatedEvents relStore "a" 2 none)
      ∧ (eventsRoute relStore "a" 2 (some "blah")
          = RouteResult.ok (getRelatedEvents relStore "a" 2 (some "blah"))) := by
  have h := cursor_asymmetry_theorem relStore "a" 2 2 1 (encodeCursor 5 5)
  have h2 := cursor_asymmetry_theorem relStore "a" 2 2 1 "blah"
  refine ⟨h.1 (5, 5) (by decide) (by decide), h.2.1 (5, 5) (by decide) (by decide),
    (h2.2.2.1 (by decide)).1, ?_⟩
  have := (h2.2.2.2 2 (by decide)).1
  simpa using this

/-- C5: a pagination size parameter outside [1, 2000) is rejected with a 400;
the rejection holds uniformly for every store, cursor and generation count,
so the store is never consulted. -/
theorem pagination_validation_theorem (n : Int) (h : n < 1 ∨ 2000 ≤ n)
    (s : Store) (id : String) (gens : Nat) (cur : Option String) :
    eventsRoute s id n cur = RouteResult.badRequest
      ∧ childrenRoute s id n gens cur = RouteResult.badRequest := by
  have hv : validSize n = false := by
    rw [Bool.eq_false_iff]
    intro hv
    simp only [validSize, Bool.and_eq_true, decide_eq_true_eq] at hv
    omega
  exact ⟨by simp [eventsRoute, hv], by simp [childrenRoute, hv]⟩

/-- C5 witness: the three sizes the tests send, 0, -1 and 2000, are all
rejected on both endpoints. -/
theorem pagination_validation_witness :
    (eventsRoute relStore "a" 0 none = RouteResult.badRequest
        ∧ childrenRoute relStore "a" 0 1 none = RouteResult.badRequest)
      ∧ (eventsRoute relStore "a" (-1) none = RouteResult.badRequest
        ∧ childrenRoute relStore "a" (-1) 1 none = RouteResult.badRequest)
      ∧ (eventsRoute relStore "a" 2000 none = RouteResult.badRequest
        ∧ childrenRoute relStore "a" 2000 1 none = RouteResult.badRequest) :=
  ⟨pagination_validation_theorem 0 (Or.inl (by decide)) relStore "a" 1 none,
   pagination_validation_theorem (-1) (Or.inl (by decide)) relStore "a" 1 none,
   pagination_validation_theorem 2000 (Or.inr (by decide)) relStore "a" 1 none⟩

/-- C6: an unknown or unmatched entity id is not an error: every endpoint
answers 200 with empty collections and null continuation cursors. -/
theorem unknown_entity_theorem (s : Store) (id : String)
    (habs : ∀ e ∈ s.docs, e.entity ≠ id ∧ e.parent ≠ some id)
    (n size gens : Nat) (cur cur2 : Option String) (a c : Int)
    (ha : validSize a = true) (hc : validSize c = true) :
    getAncestry s id n = ⟨[], none⟩
      ∧ getChildren s id size gens cur = ⟨[], none⟩
      ∧ getRelatedEvents s id size cur2 = ⟨id, [], none⟩
      ∧ ancestryRoute s id a = RouteResult.ok ⟨[], none⟩
      ∧ childrenRoute s id c gens cur = RouteResult.ok ⟨[], none⟩
      ∧ eventsRoute s id c cur2 = RouteResult.ok ⟨id, [], none⟩ := by
  have hlife : s.lifecycleOf id = [] := by
    rw [Store.lifecycleOf, List.filter_eq_nil_iff]
    intro e he
    simp [(habs e he).1]
  have hrel : s.relatedOf id = [] := by
    rw [Store.relatedOf, List.filter_eq_nil_iff]
    intro e he
    simp [(habs e he).1]
  have hchild : s.childDocs [id] = [] := by
    rw [Store.childDocs, List.filter_eq_nil_iff]
    intro e he
    cases hp : e.parent with
    | none => simp [parentIn, hp]
    | some p =>
      have hne : p ≠ id := by
        intro hpe
        exact (habs e he).2 (by rw [hp, hpe])
      simp [parentIn, hp, hne]
  have hGA : ∀ m, getAncestry s id m = ⟨[], none⟩ := by
    intro m
    simp [getAncestry, hlife]
  have hGC : ∀ sz g c2, getChildren s id sz g c2 = ⟨[], none⟩ := by
    intro sz g c2
    have hwalk := childWalk_noCandidates s sz g [id] (c2.bind decodeCursor)
      (by rw [hchild]; rfl)
    simp [getChildren, hwalk, lookupAssign_cons_self]
  have hGR : ∀ ps c2, getRelatedEvents s id ps c2 = ⟨id, [], none⟩ := by
    intro ps c2
    simp [getRelatedEvents, nextEventCursor, hrel]
  refine ⟨hGA n, hGC size gens cur, hGR size cur2, ?_, ?_, ?_⟩
  · simp [ancestryRoute, ha, hGA]
  · simp [childrenRoute, hc, hGC]
  · simp [eventsRoute, hc, hGR]

/-- C6 witness: the id 5555 matches nothing in the related-events store; all
three endpoints answer with empty bodies and null cursors. -/
theorem unknown_entity_witness :
    getAncestry relStore "5555" 5 = ⟨[], none⟩
      ∧ getChildren relStore "5555" 10 3 none = ⟨[], none⟩
      ∧ getRelatedEvents relStore "5555" 10 none = ⟨"5555", [], none⟩
      ∧ ancestryRoute relStore "5555" 5 = RouteResult.ok ⟨[], none⟩
      ∧ childrenRoute relStore "5555" 10 3 none = RouteResult.ok ⟨[], none⟩
      ∧ eventsRoute relStore "5555" 10 none = RouteResult.ok ⟨"5555", [], none⟩ :=
  unknown_entity_theorem relStore "5555" (by decide) 5 10 3 none none 5 10
    (by decide) (by decide)

/-- C7: children pagination is scoped per parent.  With a single-generation
request, every returned child node, under any cursor, stems from a start
document whose parent is the requested entity, so requesting the children of
node A with any cursor never returns children of a different parent; applied
to the per-node continuation cursor of a returned child, the follow-up
request stays scoped to that child. -/
theorem children_scoped_theorem (s : Store) (A : String) (size : Nat)
    (cur : Option String) (c : ChildNode)
    (hc : c ∈ (getChildren s A size 1 cur).childNodes) :
    ∃ e, e ∈ s.docs ∧ e.kind.isStart = true ∧ e.parent = some A
      ∧ c.entityID = e.entity ∧ c.lifecycle = s.lifecycleOf e.entity := by
  simp only [getChildren, Store.childWalk] at hc
  rw [List.append_nil] at hc
  rcases List.mem_map.mp hc with ⟨e, he, rfl⟩
  have he2 : e ∈ (s.childDocs [A]).filter (afterKey (cur.bind decodeCursor)) :=
    List.take_subset _ _ he
  have he3 : e ∈ s.childDocs [A] := List.mem_of_mem_filter he2
  have hm := List.mem_filter.mp he3
  have hm2 := hm.2
  simp only [Bool.and_eq_true] at hm2
  cases hp : e.parent with
  | none =>
    rw [parentIn, hp] at hm2
    exact absurd hm2.2 (by simp)
  | some p =>
    have hpA : p = A := by
      have hb : (p == A) = true := by
        have := hm2.2
        rw [parentIn, hp] at this
        simpa using this
      exact beq_iff_eq.mp hb
    exact ⟨e, hm.1, hm2.1, by rw [hp, hpA], rfl, rfl⟩

/-- C7 witness: the first child returned for the origin of the two-generation
store is backed by a start document whose parent is the origin itself. -/
theorem children_scoped_witness :
    ((⟨"c1", [mkE 2 2 "c1" (some "O") EventKind.start], none⟩ : ChildNode)
        ∈ (getChildren childStore "O" 100 1 none).childNodes)
      ∧ ∃ e, e ∈ childStore.docs ∧ e.kind.isStart = true ∧ e.parent = some "O"
          ∧ (⟨"c1", [mkE 2 2 "c1" (some "O") EventKind.start], none⟩
              : ChildNode).entityID = e.entity
          ∧ (⟨"c1", [mkE 2 2 "c1" (some "O") EventKind.start], none⟩
              : ChildNode).lifecycle = childStore.lifecycleOf e.entity :=
  ⟨by decide, children_scoped_theorem childStore "O" 100 none _ (by decide)⟩

/-- C8: on the concrete two-generation tree with three children per node,
requesting the children of the origin with `children = 100` returns exactly
12 nodes, and grouping them by the parent entity id of their first lifecycle
event yields exactly 4 distinct parents with exactly 3 children each. -/
theorem tree_children_count_theorem :
    (getChildren childStore "O" 100 3 none).childNodes.length = 12
      ∧ (((getChildren childStore "O" 100 3 none).childNodes.map
            (fun c => lifecycleParent c.lifecycle)).dedup.length = 4)
      ∧ ((getChildren childStore "O" 100 3 none).childNodes.map
            (fun c => lifecycleParent c.lifecycle)).count (some "O") = 3
      ∧ ((getChildren childStore "O" 100 3 none).childNodes.map
            (fun c => lifecycleParent c.lifecycle)).count (some "c1") = 3
      ∧ ((getChildren childStore "O" 100 3 none).childNodes.map
            (fun c => lifecycleParent c.lifecycle)).count (some "c2") = 3
      ∧ ((getChildren childStore "O" 100 3 none).childNodes.map
            (fun c => lifecycleParent c.lifecycle)).count (some "c3") = 3 := by
  decide

/-- Filtering with an absent cursor keeps everything. -/
theorem filter_afterKey_none (l : List Event) : l.filter (afterKey none) = l := by
  rw [List.filter_eq_self]
  intro a _
  rfl

/-- A page that is not full has a null continuation. -/
theorem nextEventCursor_short (page : List Event) (ps : Nat)
    (h : page.length ≠ ps) : nextEventCursor page ps = none := by
  unfold nextEventCursor
  cases hg : page.getLast? with
  | none => rfl
  | some e => simp [h]

/-- A full page has the cursor of its last event as the continuation. -/
theorem nextEventCursor_full (page : List Event) (ps : Nat) (hps : 1 ≤ ps)
    (h : page.length = ps) :
    ∃ e, page.getLast? = some e
      ∧ nextEventCursor page ps = some (encodeCursor e.timestamp e.eventID) := by
  have hne : page ≠ [] := by
    intro h0
    rw [h0] at h
    simp at h
    omega
  cases hg : page.getLast? with
  | none => exact absurd (getLast?_none_iff.mp hg) hne
  | some e =>
    refine ⟨e, rfl, ?_⟩
    unfold nextEventCursor
    rw [hg]
    simp [h]

/-- The events of a related-events response are the page after the decoded
cursor. -/
theorem getRelatedEvents_events (s : Store) (id : String) (ps : Nat)
    (cur : Option String) :
    (getRelatedEvents s id ps cur).events
      = ((s.relatedOf id).filter (afterKey (cur.bind decodeCursor))).take ps := rfl

/-- The continuation of a related-events response is computed from its own
page. -/
theorem getRelatedEvents_next (s : Store) (id : String) (ps : Nat)
    (cur : Option String) :
    (getRelatedEvents s id ps cur).nextEvent
      = nextEventCursor (getRelatedEvents s id ps cur).events ps := rfl

/-- Page accumulation stops after a response with a null continuation. -/
theorem collectPages_succ_none (s : Store) (id : String) (ps f : Nat)
    (cur : Option String)
    (h : (getRelatedEvents s id ps cur).nextEvent = none) :
    collectPages s id ps (f + 1) cur = (getRelatedEvents s id ps cur).events := by
  simp only [collectPages, h]

/-- Page accumulation follows a non-null continuation verbatim. -/
theorem collectPages_succ_some (s : Store) (id : String) (ps f : Nat)
    (cur : Option String) (tok : String)
    (h : (getRelatedEvents s id ps cur).nextEvent = some tok) :
    collectPages s id ps (f + 1) cur
      = (getRelatedEvents s id ps cur).events ++ collectPages s id ps f (some tok) := by
  simp only [collectPages, h]

/-- In a sorted list, the documents strictly after the last element of a
taken page are exactly the documents beyond the page. -/
theorem filter_after_take_getLast :
    ∀ (l : List Event), SortedByKey l → ∀ m e, (l.take m).getLast? = some e →
      l.filter (fun x => keyLtb e.key x.key) = l.drop m := by
  intro l
  induction l with
  | nil =>
    intro _ m e hm
    simp at hm
  | cons a t ih =>
    intro hs m e hm
    have hpc := List.pairwise_cons.mp hs
    cases m with
    | zero => simp at hm
    | succ m =>
      rw [List.take_succ_cons] at hm
      cases htake : t.take m with
      | nil =>
        rw [htake] at hm
        have hea : e = a := by
          simpa using hm.symm
        subst hea
        rcases List.take_eq_nil_iff.mp htake with hm0 | ht0
        · subst hm0
          rw [List.drop_succ_cons, List.drop_zero,
            List.filter_cons_of_neg (by simp [keyLtb_irrefl]),
            List.filter_eq_self]
          intro b hb
          exact hpc.1 b hb
        · subst ht0
          rw [List.drop_succ_cons, List.drop_nil,
            List.filter_cons_of_neg (by simp [keyLtb_irrefl]),
            List.filter_nil]
      | cons b t2 =>
        rw [htake, List.getLast?_cons_cons, ← htake] at hm
        have het : e ∈ t := List.take_subset m t (List.mem_of_getLast?_eq_some hm)
        have haf : keyLtb e.key a.key = false := keyLtb_asymm (hpc.1 e het)
        rw [List.drop_succ_cons,
          List.filter_cons_of_neg (by simp [haf])]
        exact ih hpc.2 m e hm

/-- Following `nextEvent` from any cursor position accumulates exactly the
stored suffix strictly after that cursor, once the fuel covers the number of
pages needed. -/
theorem collectPages_master (s : Store) (id : String) (ps : Nat)
    (hs : SortedByKey (s.relatedOf id)) (hps : 1 ≤ ps) :
    ∀ fuel (cur : Option (Nat × Nat)),
      ((s.relatedOf id).filter (afterKey cur)).length ≤ fuel * ps →
      collectPages s id ps fuel (cur.map (fun k => encodeCursor k.1 k.2))
        = (s.relatedOf id).filter (afterKey cur) := by
  intro fuel
  induction fuel with
  | zero =>
    intro cur hlen
    have h0 : (s.relatedOf id).filter (afterKey cur) = [] := by
      rw [← List.length_eq_zero]
      omega
    rw [h0]
    rfl
  | succ f ih =>
    intro cur hlen
    have hdec : (((cur.map (fun k => encodeCursor k.1 k.2)) : Option String).bind decodeCursor)
        = cur := bind_decode_map_encode cur
    have hev : (getRelatedEvents s id ps (cur.map (fun k => encodeCursor k.1 k.2))).events
        = ((s.relatedOf id).filter (afterKey cur)).take ps := by
      rw [getRelatedEvents_events, hdec]
    have hrs : SortedByKey ((s.relatedOf id).filter (afterKey cur)) :=
      List.Pairwise.sublist (List.filter_sublist _) hs
    rcases Nat.lt_or_ge ((s.relatedOf id).filter (afterKey cur)).length ps with hlt | hge2
    · have hpage : ((s.relatedOf id).filter (afterKey cur)).take ps
          = (s.relatedOf id).filter (afterKey cur) :=
        List.take_of_length_le (Nat.le_of_lt hlt)
      have hnone : (getRelatedEvents s id ps (cur.map (fun k => encodeCursor k.1 k.2))).nextEvent
          = none := by
        rw [getRelatedEvents_next, hev]
        exact nextEventCursor_short _ _ (by rw [hpage]; omega)
      rw [collectPages_succ_none s id ps f _ hnone, hev, hpage]
    · have hplen : (((s.relatedOf id).filter (afterKey cur)).take ps).length = ps := by
        rw [List.length_take]
        omega
      rcases nextEventCursor_full _ ps hps hplen with ⟨e, hglast, hcurfull⟩
      have hnext : (getRelatedEvents s id ps (cur.map (fun k => encodeCursor k.1 k.2))).nextEvent
          = some (encodeCursor e.timestamp e.eventID) := by
        rw [getRelatedEvents_next, hev]
        exact hcurfull
      rw [collectPages_succ_some s id ps f _ _ hnext, hev]
      have hemem : e ∈ (s.relatedOf id).filter (afterKey cur) :=
        List.take_subset ps _ (List.mem_of_getLast?_eq_some hglast)
      have hstep1 : ((s.relatedOf id).filter (afterKey cur)).filter
            (fun x => keyLtb e.key x.key)
          = (s.relatedOf id).filter (afterKey (some e.key)) := by
        rw [List.filter_filter]
        apply List.filter_congr
        intro x _
        have hsw : afterKey (some e.key) x = keyLtb e.key x.key := rfl
        rw [hsw]
        cases hax : keyLtb e.key x.key with
        | false => simp
        | true =>
          have hcx : afterKey cur x = true := by
            cases cur with
            | none => rfl
            | some k =>
              have hke : keyLtb k e.key = true := (List.mem_filter.mp hemem).2
              exact keyLtb_trans hke hax
          rw [hcx]
          simp
      have hstep2 : ((s.relatedOf id).filter (afterKey cur)).filter
            (fun x => keyLtb e.key x.key)
          = ((s.relatedOf id).filter (afterKey cur)).drop ps :=
        filter_after_take_getLast _ hrs ps e hglast
      have hlen2 : ((s.relatedOf id).filter (afterKey (some e.key))).length ≤ f * ps := by
        rw [← hstep1, hstep2, List.length_drop]
        have hsm : (f + 1) * ps = f * ps + ps := by ring
        omega
      have hcall := ih (some e.key) hlen2
      have hargs : ((some e.key : Option (Nat × Nat)).map (fun k => encodeCursor k.1 k.2))
          = some (encodeCursor e.timestamp e.eventID) := rfl
      rw [hargs] at hcall
      rw [hcall, ← hstep1, hstep2, List.take_append_drop]

/-- C4: for every valid page size, concatenating successive related-event
pages by feeding each `nextEvent` back as `afterEvent` reproduces the full
related-event set with no omissions (the concatenation equals the stored
list) and no repeats (that list is duplicate-free), and `nextEvent` is
non-null exactly when the returned page was full. -/
theorem related_pagination_theorem (s : Store) (id : String) (ps fuel : Nat)
    (hs : SortedByKey (s.relatedOf id)) (hps : 1 ≤ ps)
    (hfuel : (s.relatedOf id).length ≤ fuel * ps) :
    collectPages s id ps fuel none = s.relatedOf id
      ∧ (s.relatedOf id).Nodup
      ∧ ∀ cur, ((getRelatedEvents s id ps cur).nextEvent ≠ none
          ↔ (getRelatedEvents s id ps cur).events.length = ps) := by
  refine ⟨?_, ?_, ?_⟩
  · have h := collectPages_master s id ps hs hps fuel none
      (by rw [filter_afterKey_none]; exact hfuel)
    rw [filter_afterKey_none] at h
    exact h
  · refine List.Pairwise.imp ?_ hs
    intro a b hab
    intro hEq
    rw [hEq, keyLtb_irrefl] at hab
    exact Bool.false_ne_true hab
  · intro cur
    constructor
    · intro hne
      by_contra hlen
      exact hne (by rw [getRelatedEvents_next]; exact nextEventCursor_short _ _ hlen)
    · intro hful
      rcases nextEventCursor_full _ ps hps hful with ⟨e, _, hfullcur⟩
      rw [getRelatedEvents_next, hfullcur]
      simp

/-- C4 witness: on the related-events store with page size 2, three rounds
reproduce the four stored events, which are duplicate-free, and the first
page of two is full with a non-null continuation. -/
theorem related_pagination_witness :
    SortedByKey (relStore.relatedOf "a")
      ∧ collectPages relStore "a" 2 3 none = relStore.relatedOf "a"
      ∧ (relStore.relatedOf "a").Nodup
      ∧ ((getRelatedEvents relStore "a" 2 none).nextEvent ≠ none
          ↔ (getRelatedEvents relStore "a" 2 none).events.length = 2) := by
  have h := related_pagination_theorem relStore "a" 2 3 (by decide) (by decide) (by decide)
  exact ⟨by decide, h.1, h.2.1, h.2.2 none⟩

/-- Boolean containment on string lists agrees with membership. -/
theorem contains_iff_mem {a : String} {l : List String} :
    l.contains a = true ↔ a ∈ l := by
  simp [List.contains]

/-- The fixed category table maps distinct categories to disjoint sets of
ECS codes. -/
theorem categoryMapping_disjoint :
    ∀ c1 c2 : RelatedEventCategory, c1 ≠ c2 →
      ∀ code ∈ categoryMapping c1, code ∉ categoryMapping c2 := by
  decide

/-- Every generated related event belongs to the requested entity and is a
related event. -/
theorem mem_genRelated (id : String) :
    ∀ infos (e : Event), e ∈ genRelated id infos →
      e.entity = id ∧ e.kind = EventKind.related := by
  intro infos
  induction infos with
  | nil =>
    intro e he
    simp [genRelated] at he
  | cons q rest ih =>
    intro e he
    rcases q with ⟨cat, n⟩
    simp only [genRelated, List.mem_append, List.mem_map, List.mem_range] at he
    rcases he with ⟨i, _, rfl⟩ | he2
    · exact ⟨rfl, rfl⟩
    · exact ih e he2

/-- The related events of the generated store are exactly the generated
events. -/
theorem relatedOf_genRelated (id : String)
    (infos : List (RelatedEventCategory × Nat)) :
    (⟨genRelated id infos⟩ : Store).relatedOf id = genRelated id infos := by
  rw [Store.relatedOf]
  rw [List.filter_eq_self]
  intro e he
  rcases mem_genRelated id infos e he with ⟨h1, h2⟩
  simp [h1, h2, EventKind.isRelated]

/-- Counting the generated events carrying a given code sums, over the
per-category inputs, the count of every category whose mapping contains the
code. -/
theorem genRelated_count (id : String) (code : String) :
    ∀ infos, ((genRelated id infos).filter
        (fun e => e.categories.contains code)).length
      = (infos.map (fun q =>
          if (categoryMapping q.1).contains code then q.2 else 0)).sum := by
  intro infos
  induction infos with
  | nil => rfl
  | cons q rest ih =>
    rcases q with ⟨cat, n⟩
    simp only [genRelated, List.filter_append, List.length_append, List.map_cons,
      List.sum_cons, ih]
    congr 1
    cases hb : (categoryMapping cat).contains code with
    | false =>
      have hnil : ((List.range n).map (fun i =>
          ({ timestamp := 0, eventID := i, entity := id, parent := none
             kind := .related, categories := categoryMapping cat } : Event))).filter
            (fun e => e.categories.contains code) = [] := by
        rw [List.filter_eq_nil_iff]
        intro e he
        rcases List.mem_map.mp he with ⟨i, _, rfl⟩
        show ¬((categoryMapping cat).contains code = true)
        rw [hb]
        exact Bool.false_ne_true
      rw [hnil]
      simp
    | true =>
      have hall : ((List.range n).map (fun i =>
          ({ timestamp := 0, eventID := i, entity := id, parent := none
             kind := .related, categories := categoryMapping cat } : Event))).filter
            (fun e => e.categories.contains code)
          = (List.range n).map (fun i =>
          ({ timestamp := 0, eventID := i, entity := id, parent := none
             kind := .related, categories := categoryMapping cat } : Event)) := by
        rw [List.filter_eq_self]
        intro e he
        rcases List.mem_map.mp he with ⟨i, _, rfl⟩
        show (categoryMapping cat).contains code = true
        exact hb
      rw [hall]
      simp

/-- The generator produces exactly the requested number of events. -/
theorem genRelated_length (id : String) :
    ∀ infos, (genRelated id infos).length = (infos.map (fun q => q.2)).sum := by
  intro infos
  induction infos with
  | nil => rfl
  | cons q rest ih =>
    rcases q with ⟨cat, n⟩
    simp [genRelated, ih]

/-- When the categories of the inputs are distinct, the per-code sum
collapses to the count of the one category owning the code. -/
theorem sum_single_category (code : String) :
    ∀ (infos : List (RelatedEventCategory × Nat)) (cat : RelatedEventCategory)
      (n : Nat),
      (infos.map (fun q => q.1)).Nodup → (cat, n) ∈ infos →
      code ∈ categoryMapping cat →
      (infos.map (fun q =>
          if (categoryMapping q.1).contains code then q.2 else 0)).sum = n := by
  intro infos
  induction infos with
  | nil =>
    intro cat n _ hmem _
    simp at hmem
  | cons q rest ih =>
    intro cat n hnd hmem hcode
    rcases q with ⟨cat0, n0⟩
    rw [List.map_cons] at hnd
    have hhead : cat0 ∉ rest.map (fun q => q.1) := (List.nodup_cons.mp hnd).1
    have htail : (rest.map (fun q => q.1)).Nodup := (List.nodup_cons.mp hnd).2
    rw [List.map_cons, List.sum_cons]
    rcases List.mem_cons.mp hmem with heq | hmem2
    · cases heq
      rw [if_pos (contains_iff_mem.mpr hcode)]
      have hrest : (rest.map (fun q =>
          if (categoryMapping q.1).contains code then q.2 else 0)).sum = 0 := by
        apply List.sum_eq_zero
        intro x hx
        rcases List.mem_map.mp hx with ⟨⟨cat2, n2⟩, hq2, rfl⟩
        have hne : cat2 ≠ cat := by
          intro hEq
          subst hEq
          exact hhead (List.mem_map.mpr ⟨(cat2, n2), hq2, rfl⟩)
        have hdis := categoryMapping_disjoint cat cat2 (fun h => hne h.symm) code hcode
        rw [if_neg]
        intro hcon
        exact hdis (contains_iff_mem.mp hcon)
      rw [hrest]
      omega
    · have hne : cat0 ≠ cat := by
        intro hEq
        subst hEq
        exact hhead (List.mem_map.mpr ⟨(cat0, n), hmem2, rfl⟩)
      have hdis := categoryMapping_disjoint cat cat0 (fun h => hne h.symm) code hcode
      rw [if_neg (fun hcon => hdis (contains_iff_mem.mp hcon))]
      rw [ih cat n htail hmem2 hcode]
      omega

/-- C9: for a store generated from per-category counts with distinct
categories, every ECS code a category maps to receives exactly the count of
that category (in particular all codes of a multi-code category receive the
same count), and the stats total is the plain number of related events, the
sum of the per-category counts, never double-counting an event that carries
several codes. -/
theorem stats_theorem (id : String) (infos : List (RelatedEventCategory × Nat))
    (hnd : (infos.map (fun q => q.1)).Nodup) :
    (∀ cat n, (cat, n) ∈ infos → ∀ code ∈ categoryMapping cat,
        (computeStats ⟨genRelated id infos⟩ id).byCategory code = n)
      ∧ (computeStats ⟨genRelated id infos⟩ id).total
          = (infos.map (fun q => q.2)).sum := by
  constructor
  · intro cat n hmem code hcode
    show (((⟨genRelated id infos⟩ : Store).relatedOf id).filter
        (fun e => e.categories.contains code)).length = n
    rw [relatedOf_genRelated, genRelated_count]
    exact sum_single_category code infos cat n hnd hmem hcode
  · show ((⟨genRelated id infos⟩ : Store).relatedOf id).length = _
    rw [relatedOf_genRelated, genRelated_length]

/-- C9 witness: the category counts of the tests plus a multi-code security
category: driver gets 2, both codes of security get 3 each, and the total is
the sum 7. -/
theorem stats_witness :
    ((([((.driver : RelatedEventCategory), 2), (.file, 1), (.registry, 1),
          (.security, 3)] : List (RelatedEventCategory × Nat)).map
        (fun q => q.1)).Nodup)
      ∧ (computeStats ⟨genRelated "a" [(.driver, 2), (.file, 1), (.registry, 1),
          (.security, 3)]⟩ "a").byCategory "driver" = 2
      ∧ (computeStats ⟨genRelated "a" [(.driver, 2), (.file, 1), (.registry, 1),
          (.security, 3)]⟩ "a").byCategory "authentication" = 3
      ∧ (computeStats ⟨genRelated "a" [(.driver, 2), (.file, 1), (.registry, 1),
          (.security, 3)]⟩ "a").byCategory "session" = 3
      ∧ (computeStats ⟨genRelated "a" [(.driver, 2), (.file, 1), (.registry, 1),
          (.security, 3)]⟩ "a").total = 7 := by
  have h := stats_theorem "a" [(.driver, 2), (.file, 1), (.registry, 1),
    (.security, 3)] (by decide)
  refine ⟨by decide, ?_, ?_, ?_, ?_⟩
  · exact h.1 .driver 2 (by decide) "driver" (by decide)
  · exact h.1 .security 3 (by decide) "authentication" (by decide)
  · exact h.1 .security 3 (by decide) "session" (by decide)
  · simpa using h.2

/-- Along the bounded parent chain the depth measure strictly decreases, and
every chain member sits at or below the depth of the link the chain hangs
off. -/
theorem chainFrom_depth (s : Store) (depth : String → Nat)
    (hd : s.AncDepthWF depth) :
    ∀ fuel p, ((s.chainFrom fuel p).Pairwise (fun a b => depth b < depth a))
      ∧ (∀ r ∈ s.chainFrom fuel p, ∀ q, p = some q → depth r ≤ depth q) := by
  intro fuel
  induction fuel with
  | zero =>
    intro p
    cases p <;> simp [Store.chainFrom]
  | succ k ih =>
    intro p
    cases p with
    | none => simp [Store.chainFrom]
    | some pid =>
      by_cases h : (s.lifecycleOf pid).isEmpty
      · simp [Store.chainFrom, h]
      · simp only [Store.chainFrom, h, if_false, Bool.false_eq_true]
        have ihp := ih (s.parentLinkOf pid)
        constructor
        · rw [List.pairwise_cons]
          refine ⟨?_, ihp.1⟩
          intro r hr
          cases hq : s.parentLinkOf pid with
          | none =>
            rw [hq] at hr
            simp [Store.chainFrom] at hr
          | some q =>
            have h1 := ihp.2 r hr q hq
            have h2 := parentLink_depth s depth hd hq
            omega
        · intro r hr q hq
          cases hq
          rcases List.mem_cons.mp hr with rfl | hr2
          · exact Nat.le_refl _
          · cases hq3 : s.parentLinkOf pid with
            | none =>
              rw [hq3] at hr2
              simp [Store.chainFrom] at hr2
            | some q3 =>
              have h1 := ihp.2 r hr2 q3 hq3
              have h2 := parentLink_depth s depth hd hq3
              omega

/-- When the entity is known, the ancestry array is one step of the walk
started at the entity itself. -/
theorem getAncestry_eq_walk (s : Store) (id : String) (n : Nat)
    (h : (s.lifecycleOf id).isEmpty = false) :
    (getAncestry s id n).ancestors = (s.ancestorsAfter (n + 1) (some id)).1 := by
  simp [getAncestry, Store.ancestorsAfter, h]

/-- The first node collected from a resolvable link is that link itself. -/
theorem ancestorsAfter_head (s : Store) (fuel : Nat) (q : String)
    (nd : LifecycleNode) (rest : List LifecycleNode)
    (h : (s.ancestorsAfter fuel (some q)).1 = nd :: rest) : nd.entityID = q := by
  cases fuel with
  | zero => simp [Store.ancestorsAfter] at h
  | succ k =>
    by_cases he : (s.lifecycleOf q).isEmpty
    · simp [Store.ancestorsAfter, he] at h
    · simp only [Store.ancestorsAfter, he, if_false, Bool.false_eq_true] at h
      injection h with h1 _
      rw [← h1]

/-- Structure of the parent links of the collected ancestors: every node but
the last carries the id of its successor, and the last carries its own parent
link. -/
theorem ancestorsAfter_parents (s : Store) :
    ∀ fuel p, (s.ancestorsAfter fuel p).1 ≠ [] →
      ∃ lastId,
        ((s.ancestorsAfter fuel p).1.map (fun nd => nd.entityID)).getLast?
            = some lastId
          ∧ (s.ancestorsAfter fuel p).1.map (fun nd => lifecycleParent nd.lifecycle)
              = (((s.ancestorsAfter fuel p).1.map (fun nd => nd.entityID)).tail).map some
                  ++ [s.parentLinkOf lastId] := by
  intro fuel
  induction fuel with
  | zero =>
    intro p hne
    cases p with
    | none => exact absurd rfl hne
    | some pid => exact absurd rfl hne
  | succ k ih =>
    intro p hne
    cases p with
    | none => exact absurd rfl hne
    | some pid =>
      by_cases he : (s.lifecycleOf pid).isEmpty
      · refine absurd ?_ hne
        simp [Store.ancestorsAfter, he]
      · have hstep : (s.ancestorsAfter (k + 1) (some pid)).1
            = ⟨pid, s.lifecycleOf pid⟩
                :: (s.ancestorsAfter k (lifecycleParent (s.lifecycleOf pid))).1 := by
          simp [Store.ancestorsAfter, he]
        rw [hstep]
        cases hrest : (s.ancestorsAfter k (lifecycleParent (s.lifecycleOf pid))).1 with
        | nil =>
          refine ⟨pid, by simp, ?_⟩
          simp [Store.parentLinkOf]
        | cons nd2 rest2 =>
          rcases ih (lifecycleParent (s.lifecycleOf pid)) (by rw [hrest]; simp)
            with ⟨lastId, hl, hp⟩
          rw [hrest] at hl hp
          have hplink : ∃ q2, lifecycleParent (s.lifecycleOf pid) = some q2 := by
            cases hq : lifecycleParent (s.lifecycleOf pid) with
            | none =>
              rw [hq] at hrest
              simp [Store.ancestorsAfter] at hrest
            | some q2 => exact ⟨q2, rfl⟩
          rcases hplink with ⟨q2, hq2⟩
          have hhead : nd2.entityID = q2 :=
            ancestorsAfter_head s k q2 nd2 rest2 (by rw [← hq2, hrest])
          refine ⟨lastId, ?_, ?_⟩
          · rw [List.map_cons, List.map_cons, List.getLast?_cons_cons]
            rw [List.map_cons] at hl
            exact hl
          · simp only [List.map_cons, List.tail_cons, List.cons_append] at hp ⊢
            have hfirst : lifecycleParent
                (LifecycleNode.mk pid (s.lifecycleOf pid)).lifecycle = some q2 := hq2
            rw [hfirst, hhead, hp]

/-- The last element of a strictly depth-decreasing list minimises the
depth. -/
theorem pairwise_getLast_min (depth : String → Nat) :
    ∀ (l : List String), l.Pairwise (fun a b => depth b < depth a) →
      ∀ x, l.getLast? = some x → ∀ r ∈ l, depth x ≤ depth r := by
  intro l
  induction l with
  | nil =>
    intro _ x hx
    simp at hx
  | cons a t ih =>
    intro hp x hx r hr
    have hpc := List.pairwise_cons.mp hp
    cases t with
    | nil =>
      have hxa : x = a := by simpa using hx.symm
      rcases List.mem_cons.mp hr with rfl | hr2
      · rw [hxa]
      · simp at hr2
    | cons b t2 =>
      rw [List.getLast?_cons_cons] at hx
      rcases List.mem_cons.mp hr with rfl | hr2
      · have hxmem : x ∈ b :: t2 := List.mem_of_getLast?_eq_some hx
        have := hpc.1 x hxmem
        omega
      · exact ih hpc.2 x hx r hr2

/-- One unfolding step of the generation walk. -/
theorem childWalk_succ_nodes (s : Store) (size g : Nat) (frontier : List String)
    (cur : Option (Nat × Nat)) :
    (s.childWalk size (g + 1) frontier cur).1
      = (((s.childDocs frontier).filter (afterKey cur)).take size).map
          (fun e => ChildNode.mk e.entity (s.lifecycleOf e.entity)
            (lookupAssign
              (s.childWalk size g
                ((((s.childDocs frontier).filter (afterKey cur)).take size).map
                  (fun e => e.entity)) none).2 e.entity))
        ++ (s.childWalk size g
            ((((s.childDocs frontier).filter (afterKey cur)).take size).map
              (fun e => e.entity)) none).1 := rfl

/-- The candidate documents of a generation are a sub-sequence of all start
documents. -/
theorem childDocs_sublist_start (s : Store) (frontier : List String) :
    List.Sublist (s.childDocs frontier) (s.docs.filter (fun e => e.kind.isStart)) := by
  have h1 : s.childDocs frontier
      = (s.docs.filter (fun e => e.kind.isStart)).filter (parentIn frontier) := by
    rw [List.filter_filter, Store.childDocs]
    apply List.filter_congr
    intro e _
    exact Bool.and_comm _ _
  rw [h1]
  exact List.filter_sublist _

/-- Every document of a generation page is a start document of the store
whose parent lies in the frontier. -/
theorem page_mem_spec (s : Store) (frontier : List String)
    (cur : Option (Nat × Nat)) (size : Nat) (e : Event)
    (he : e ∈ ((s.childDocs frontier).filter (afterKey cur)).take size) :
    e ∈ s.docs ∧ e.kind.isStart = true
      ∧ ∃ p, e.parent = some p ∧ p ∈ frontier := by
  have h1 : e ∈ s.childDocs frontier :=
    List.mem_of_mem_filter (List.take_subset _ _ he)
  have hm := List.mem_filter.mp h1
  have hm2 := hm.2
  simp only [Bool.and_eq_true] at hm2
  refine ⟨hm.1, hm2.1, ?_⟩
  cases hp : e.parent with
  | none =>
    rw [parentIn, hp] at hm2
    exact absurd hm2.2 (by simp)
  | some p =>
    refine ⟨p, rfl, ?_⟩
    have hany := hm2.2
    rw [parentIn, hp] at hany
    rcases List.any_eq_true.mp hany with ⟨q, hq, hbeq⟩
    rw [beq_iff_eq.mp hbeq]
    exact hq

/-- Starting from a frontier of uniform depth, the generation walk only
returns nodes of strictly greater depth, and the returned entity ids are
duplicate-free. -/
theorem childWalk_nodup (s : Store) (depth : String → Nat)
    (hChild : s.ChildDepthWF depth) (hStart : s.StartNodup) (size : Nat) :
    ∀ gens frontier cur d, (∀ f ∈ frontier, depth f = d) →
      (∀ c ∈ (s.childWalk size gens frontier cur).1, d < depth c.entityID)
        ∧ ((s.childWalk size gens frontier cur).1.map
            (fun c => c.entityID)).Nodup := by
  intro gens
  induction gens with
  | zero =>
    intro frontier cur d _
    simp [Store.childWalk]
  | succ g ih =>
    intro frontier cur d hf
    have hdepthPage : ∀ e ∈ ((s.childDocs frontier).filter (afterKey cur)).take size,
        depth e.entity = d + 1 := by
      intro e he
      rcases page_mem_spec s frontier cur size e he with ⟨hdoc, hstart, p, hp, hpf⟩
      have hall := hChild e hdoc hstart
      rw [hp] at hall
      simp only [Option.all_some, decide_eq_true_eq] at hall
      rw [hall, hf p hpf]
    have hdeep := ih ((((s.childDocs frontier).filter (afterKey cur)).take size).map
        (fun e => e.entity)) none (d + 1) (by
      intro f hfm
      rcases List.mem_map.mp hfm with ⟨e, he, rfl⟩
      exact hdepthPage e he)
    rw [childWalk_succ_nodes]
    constructor
    · intro c hc
      rcases List.mem_append.mp hc with hc1 | hc2
      · rcases List.mem_map.mp hc1 with ⟨e, he, rfl⟩
        have hde := hdepthPage e he
        show d < depth e.entity
        omega
      · have := hdeep.1 c hc2
        omega
    · rw [List.map_append, List.map_map]
      have hpagemap : (((s.childDocs frontier).filter (afterKey cur)).take size).map
          ((fun c => c.entityID) ∘ (fun e => ChildNode.mk e.entity (s.lifecycleOf e.entity)
            (lookupAssign (s.childWalk size g
              ((((s.childDocs frontier).filter (afterKey cur)).take size).map
                (fun e => e.entity)) none).2 e.entity)))
          = (((s.childDocs frontier).filter (afterKey cur)).take size).map
              (fun e => e.entity) := by
        apply List.map_congr_left
        intro e _
        rfl
      rw [hpagemap]
      apply List.Nodup.append
      · have hsub : List.Sublist (((s.childDocs frontier).filter (afterKey cur)).take size)
            (s.docs.filter (fun e => e.kind.isStart)) :=
          ((List.take_sublist _ _).trans (List.filter_sublist _)).trans
            (childDocs_sublist_start s frontier)
        exact List.Nodup.sublist (hsub.map (fun e => e.entity)) hStart
      · exact hdeep.2
      · intro a ha hb
        rcases List.mem_map.mp ha with ⟨e, he, rfl⟩
        have h1 : depth e.entity = d + 1 := hdepthPage e he
        rcases List.mem_map.mp hb with ⟨c, hc, hce⟩
        have h2 : d + 1 < depth c.entityID := hdeep.1 c hc
        rw [hce] at h2
        omega

/-- C10: duplicate-freedom of the responses.  Under the data-model
invariants (acyclic parent links witnessed by a depth measure, one start
event per entity, children one generation below their parent), no two
returned ancestry nodes share an entity id, no two of them share a parent
entity id, and no two returned child nodes share an entity id. -/
theorem responses_nodup_theorem (s : Store) (depth : String → Nat)
    (hAnc : s.AncDepthWF depth) (hChild : s.ChildDepthWF depth)
    (hStart : s.StartNodup) (id : String) (n size gens : Nat)
    (cur : Option String) :
    ((getAncestry s id n).ancestors.map (fun nd => nd.entityID)).Nodup
      ∧ ((getAncestry s id n).ancestors.map
          (fun nd => lifecycleParent nd.lifecycle)).Nodup
      ∧ ((getChildren s id size gens cur).childNodes.map
          (fun c => c.entityID)).Nodup := by
  have hdepthNe : ∀ a b : String, depth b < depth a → a ≠ b := by
    intro a b hab hEq
    rw [hEq] at hab
    omega
  refine ⟨?_, ?_, ?_⟩
  · by_cases h : (s.lifecycleOf id).isEmpty
    · simp [getAncestry, h]
    · rw [getAncestry_eq_walk s id n (by rw [Bool.eq_false_iff]; exact h),
        ancestorsAfter_ids]
      exact List.Pairwise.imp (fun hab => hdepthNe _ _ hab)
        (chainFrom_depth s depth hAnc (n + 1) (some id)).1
  · by_cases h : (s.lifecycleOf id).isEmpty
    · simp [getAncestry, h]
    · rw [getAncestry_eq_walk s id n (by rw [Bool.eq_false_iff]; exact h)]
      have hne : (s.ancestorsAfter (n + 1) (some id)).1 ≠ [] := by
        simp [Store.ancestorsAfter, h]
      rcases ancestorsAfter_parents s (n + 1) (some id) hne with ⟨lastId, hl, hp⟩
      rw [hp]
      have hpair : ((s.ancestorsAfter (n + 1) (some id)).1.map
          (fun nd => nd.entityID)).Pairwise (fun a b => depth b < depth a) := by
        rw [ancestorsAfter_ids]
        exact (chainFrom_depth s depth hAnc (n + 1) (some id)).1
      have htailpair := List.Pairwise.sublist (List.tail_sublist _) hpair
      apply List.Nodup.append
      · exact List.Nodup.map (Option.some_injective String)
          (List.Pairwise.imp (fun hab => hdepthNe _ _ hab) htailpair)
      · exact List.nodup_singleton _
      · intro a ha hb
        rcases List.mem_map.mp ha with ⟨r, hr, rfl⟩
        have hplv : s.parentLinkOf lastId = some r := by
          have hbm := List.mem_singleton.mp hb
          rw [hbm]
        have hqd : depth r < depth lastId := parentLink_depth s depth hAnc hplv
        have hmin := pairwise_getLast_min depth _ hpair lastId hl r
          ((List.tail_sublist _).subset hr)
        omega
  · have hw := childWalk_nodup s depth hChild hStart size gens [id]
      (cur.bind decodeCursor) (depth id) (by
        intro f hfm
        rw [List.mem_singleton.mp hfm])
    exact hw.2

/-- C10 witness: on the two-generation tree store with its generation-depth
measure, both the ancestry of a leaf and the children of the origin are
duplicate-free. -/
theorem responses_nodup_witness :
    childStore.AncDepthWF childDepth
      ∧ childStore.ChildDepthWF childDepth
      ∧ childStore.StartNodup
      ∧ ((getAncestry childStore "d1" 9).ancestors.map
          (fun nd => nd.entityID)).Nodup
      ∧ ((getAncestry childStore "d1" 9).ancestors.map
          (fun nd => lifecycleParent nd.lifecycle)).Nodup
      ∧ ((getChildren childStore "O" 100 3 none).childNodes.map
          (fun c => c.entityID)).Nodup := by
  have h := responses_nodup_theorem childStore childDepth (by decide) (by decide)
    (by decide) "d1" 9 100 3 none
  have h2 := responses_nodup_theorem childStore childDepth (by decide) (by decide)
    (by decide) "O" 9 100 3 none
  exact ⟨by decide, by decide, by decide, h.1, h.2.1, h2.2.2⟩

end Resolver
